import Mathlib

/-!
Verification of the OpenTimestamps calendar server core
(`src/otsserver/calendar.py`) against its natural-language specification.

Shallow embedding conventions:
* Byte strings are `List Nat` (each element a byte value; claims never depend
  on the 0..255 bound).
* The SHA256 primitive of the external `opentimestamps` library is an
  explicit function parameter `hash : List Nat → List Nat`; the claims never
  depend on its value, only on its determinism.
* Files (the journal) are `List Nat` of their byte content; a Python
  exception is `none` / `Except.error`.
* The LevelDB key-value store backing `LevelDbCalendar` is a total function
  `List Nat → List Op` (key → serialized top-level op list, `[]` for an
  absent key), so store equality is extensional function equality.
-/

/-- The timestamp transform operations of `opentimestamps.core.op`
(`OpPrepend`, `OpAppend`, `OpSHA256`) as consumed by `calendar.py`. -/
inductive Op where
  | prepend (bytes : List Nat)
  | append (bytes : List Nat)
  | sha256
deriving DecidableEq, Repr

/-- The `opentimestamps.core.timestamp.Timestamp` structure as consumed by
`calendar.py`: a root message digest together with the set of ops applied to
it, each op carrying the nested sub-Timestamp of its result.  Attestations
are omitted: no claim under verification depends on them. -/
inductive Timestamp where
  | mk (msg : List Nat) (ops : List (Op × Timestamp))
deriving Repr

/-- Root message digest of a timestamp (`Timestamp.msg`). -/
def Timestamp.msg : Timestamp → List Nat
  | .mk m _ => m

/-- Op set of a timestamp (`Timestamp.ops`), with each op's sub-timestamp. -/
def Timestamp.ops : Timestamp → List (Op × Timestamp)
  | .mk _ ops => ops

/-- The top-level ops of a timestamp, without their sub-timestamps
(what `LevelDbCalendar.__get_timestamp` reads back non-recursively). -/
def Timestamp.topOps (t : Timestamp) : List Op := t.ops.map Prod.fst

/-- Result of one op applied to a message (`Op.__call__` of the external
library): `OpPrepend b` maps `m` to `b ++ m`, `OpAppend b` maps `m` to
`m ++ b`, `OpSHA256` hashes. -/
def applyOp (hash : List Nat → List Nat) : Op → List Nat → List Nat
  | .prepend b, m => b ++ m
  | .append b, m => m ++ b
  | .sha256, m => hash m

/-- Result of a chain of ops applied in order to a message. -/
def applyOps (hash : List Nat → List Nat) (ops : List Op) (m : List Nat) : List Nat :=
  ops.foldl (fun acc op => applyOp hash op acc) m

/-- `struct.pack('>L', t)`: the 4-byte big-endian encoding used for
submission times in `Calendar.submit`. -/
def pack32be (t : Nat) : List Nat :=
  [t / 16777216 % 256, t / 65536 % 256, t / 256 % 256, t % 256]

/-- `Journal.COMMITMENT_SIZE = 32 + 4`. -/
def COMMITMENT_SIZE : Nat := 36

/-- `Journal.__getitem__`: seek to `idx * COMMITMENT_SIZE`, read
`COMMITMENT_SIZE` bytes; raise `KeyError` (here `none`) unless exactly
`COMMITMENT_SIZE` bytes were read. -/
def Journal.getitem (file : List Nat) (idx : Nat) : Option (List Nat) :=
  let commitment := (file.drop (idx * COMMITMENT_SIZE)).take COMMITMENT_SIZE
  if commitment.length = COMMITMENT_SIZE then some commitment else none

/-- `JournalWriter.__init__`: the journal file is opened for append; if its
length is not a multiple of `COMMITMENT_SIZE`, zero padding is written up to
the next multiple. -/
def JournalWriter.openJournal (file : List Nat) : List Nat :=
  if file.length % COMMITMENT_SIZE = 0 then file
  else file ++ List.replicate (COMMITMENT_SIZE - file.length % COMMITMENT_SIZE) 0

/-- `JournalWriter.submit`: raise `ValueError` (here `none`) unless the entry
is exactly `COMMITMENT_SIZE` bytes; the `assert` that the file length is a
multiple of `COMMITMENT_SIZE` is modelled as a second failure case; otherwise
append the entry (flush and fsync have no functional content here). -/
def JournalWriter.submit (file commitment : List Nat) : Option (List Nat) :=
  if commitment.length ≠ COMMITMENT_SIZE then none
  else if file.length % COMMITMENT_SIZE ≠ 0 then none
  else some (file ++ commitment)

/-- `Calendar.submit`: pack the current time as 4 big-endian bytes, extend the
submitted commitment timestamp with `OpPrepend(serialized_time)` (so the new
commitment's message is `serialized_time ++ root`), attach the pending
attestation (not modelled, see `Timestamp`), and journal the new commitment's
message bytes.  Returns the extended timestamp and the new journal content,
or `none` when `JournalWriter.submit` raises. -/
def Calendar.submit (time : Nat) (c : Timestamp) (journal : List Nat) :
    Option (Timestamp × List Nat) :=
  let serializedTime := pack32be time
  let child := Timestamp.mk (serializedTime ++ c.msg) []
  match JournalWriter.submit journal child.msg with
  | none => none
  | some j => some (Timestamp.mk c.msg ((Op.prepend serializedTime, child) :: c.ops), j)

/-- Modelled from the spec: `nonce_timestamp` of the external library
("add_nonce(Timestamp) -> Timestamp (prepends random bytes as an op)",
§6), with the random bytes an explicit parameter.  Given the caller's
timestamp rooted at `msg` it returns (the caller's timestamp, now carrying
the nonce op and its sub-timestamp beneath the root) and (the nonced
sub-timestamp itself, the value handed on for aggregation). -/
def nonceTimestamp (nonce msg : List Nat) : Timestamp × Timestamp :=
  let nonced := Timestamp.mk (nonce ++ msg) []
  (Timestamp.mk msg [(Op.prepend nonce, nonced)], nonced)

/-- The op chain the nonce adds beneath a submitted digest. -/
def nonceOps (nonce : List Nat) : List Op := [Op.prepend nonce]

/-- `Aggregator.submit`: build `Timestamp(msg)`, enqueue the nonced
derivative `nonce_timestamp(timestamp)`, block until the tick, and return
the original `timestamp` (first component).  The second component is the
value enqueued on `digest_queue`. -/
def Aggregator.submit (nonce msg : List Nat) : Timestamp × Timestamp :=
  nonceTimestamp nonce msg

/-- Modelled from the spec: `make_merkle_tree` of the external library
("build_merkle_tree(list of digests) -> Timestamp (root = commitment)",
§6), realized as a left fold that combines the accumulated commitment with
each further digest by append/prepend and hash.  `foldMerkle hash acc
chains rest` returns the final root and, for each digest already folded in,
the op chain that takes that digest to the root. -/
def foldMerkle (hash : List Nat → List Nat) :
    List Nat → List (List Op) → List (List Nat) → List Nat × List (List Op)
  | acc, chains, [] => (acc, chains)
  | acc, chains, d :: rest =>
      foldMerkle hash (hash (acc ++ d))
        (chains.map (fun c => c ++ [Op.append d, Op.sha256]) ++
          [[Op.prepend acc, Op.sha256]]) rest

/-- Modelled from the spec: the Merkle tree over a non-empty batch of
digests; the result is the root commitment digest and one op chain per
input digest. -/
def makeMerkleTree (hash : List Nat → List Nat) :
    List (List Nat) → Option (List Nat × List (List Op))
  | [] => none
  | d :: rest => some (foldMerkle hash d [[]] rest)

/-- One iteration of `Aggregator.__loop` acting on the drained queue
contents: if no digests were collected the tick does nothing (`continue`);
otherwise it builds the Merkle tree over the drained digests and submits the
root commitment to the Calendar (which journals it).  Returns the new
journal content and, when a commitment was made, the root digest with the
per-leaf op chains.  A `ValueError` from the journal aborts the tick with
the journal unchanged. -/
def Aggregator.tick (hash : List Nat → List Nat) (queue : List (List Nat))
    (time : Nat) (journal : List Nat) :
    List Nat × Option (List Nat × List (List Op)) :=
  if queue.isEmpty then (journal, none)
  else
    match makeMerkleTree hash queue with
    | none => (journal, none)
    | some (root, chains) =>
      match Calendar.submit time (Timestamp.mk root []) journal with
      | none => (journal, none)
      | some (_, j) => (j, some (root, chains))

/-- The LevelDB store backing `LevelDbCalendar`: message digest → serialized
top-level op list (`[]` for an absent key). -/
abbrev Store := List Nat → List Op

/-- `batch.Put`: one buffered key/value write. -/
def Store.put (s : Store) (k : List Nat) (v : List Op) : Store :=
  fun k' => if k' = k then v else s k'

/-- `self.db.Write(batch)`: apply a write batch's puts in order. -/
def applyBatch (s : Store) (b : List (List Nat × List Op)) : Store :=
  b.foldl (fun acc kv => Store.put acc kv.1 kv.2) s

/-- `LevelDbCalendar.add` exactly as in the source (calendar.py:134-137):
it creates a `WriteBatch` named `batch`, runs `__add_timestamp` on a
*different, freshly created* `WriteBatch` whose accumulated puts are then
discarded, and commits the untouched `batch`.  The truncated
`__add_timestamp` body is abstracted as a parameter `mergeBody` producing a
write batch; whatever it produces is never committed. -/
def LevelDbCalendar.add (mergeBody : Store → Timestamp → List (List Nat × List Op))
    (s : Store) (t : Timestamp) : Store :=
  let batch : List (List Nat × List Op) := []
  let _fresh := mergeBody s t
  applyBatch s batch

/-- Union of an existing op set with the incoming ops: ops already present
are kept once, incoming ops absent from the existing set are appended
(§4.4 rule (2)). -/
def unionOps (ex new : List Op) : List Op :=
  ex ++ new.filter (fun o => decide (o ∉ ex))

/-- Non-recursive op-set equality: the comparison of
`existing_timestamp == new_timestamp` at calendar.py:123, which per the
source comment ignores nested sub-timestamps (§4.4 rule (1)). -/
def sameOpSet (a b : List Op) : Bool :=
  decide (∀ o ∈ a, o ∈ b) && decide (∀ o ∈ b, o ∈ a)

mutual

/-- Modelled from the spec: the body of `LevelDbCalendar.__add_timestamp` is
syntactically truncated in the source (calendar.py:130-132), so the merge
follows §4.4: read the existing top-level op set for the root digest
(absent key = empty timestamp, calendar.py:118-121); if it equals the
incoming op set non-recursively, the call is a no-op (calendar.py:123-127);
otherwise store the union of the two op sets under the root digest and
recursively merge every incoming op's sub-timestamp under its own result
digest. -/
def mergeTimestamp (s : Store) : Timestamp → Store
  | .mk m ops =>
    let ex := s m
    if sameOpSet ex (ops.map Prod.fst) then s
    else mergeOpsList (Store.put s m (unionOps ex (ops.map Prod.fst))) ops

/-- Modelled from the spec: recursive merging of the sub-timestamp of each
incoming op (§4.4 rule (3)), in op order. -/
def mergeOpsList (s : Store) : List (Op × Timestamp) → Store
  | [] => s
  | (_, sub) :: rest => mergeOpsList (mergeTimestamp s sub) rest

end

mutual

/-- All node digests of a timestamp: its root message and, recursively,
those of every op's sub-timestamp. -/
def tsKeys : Timestamp → List (List Nat)
  | .mk m ops => m :: opsKeys ops

/-- All node digests of the sub-timestamps of an op list. -/
def opsKeys : List (Op × Timestamp) → List (List Nat)
  | [] => []
  | (_, sub) :: rest => tsKeys sub ++ opsKeys rest

end

/-- `sorted(timestamps)`: insertion of one directory entry into a
name-sorted list.  Directory entries are (filename, parse result) pairs;
filenames are modelled as naturals, a parse result is `some` timestamp or
`none` for a `DeserializationError`. -/
def insertSorted (f : Nat × Option Timestamp) :
    List (Nat × Option Timestamp) → List (Nat × Option Timestamp)
  | [] => [f]
  | g :: rest => if f.1 ≤ g.1 then f :: g :: rest else g :: insertSorted f rest

/-- `sorted(timestamps)`: the directory listing in sorted filename order. -/
def sortFiles (files : List (Nat × Option Timestamp)) :
    List (Nat × Option Timestamp) :=
  files.foldr insertSorted []

/-- `Calendar.__getitem__`: `none` models a missing commitment directory
(`FileNotFoundError`); an empty listing raises `KeyError`; otherwise every
file is deserialized in sorted filename order, a file failing to parse is
logged and skipped, and if no file parsed the lookup raises `KeyError`
(`Except.error ()`), else the parsed timestamps are yielded in order. -/
def Calendar.getitem (dir : Option (List (Nat × Option Timestamp))) :
    Except Unit (List Timestamp) :=
  match dir with
  | none => .error ()
  | some files =>
    if files.isEmpty then .error ()
    else
      let valid := (sortFiles files).filterMap Prod.snd
      if valid.isEmpty then .error () else .ok valid

theorem applyOps_append (hash : List Nat → List Nat) (a b : List Op) (m : List Nat) :
    applyOps hash (a ++ b) m = applyOps hash b (applyOps hash a m) := by
  simp [applyOps, List.foldl_append]

/-- C1: the merge union law fails on the code as written: whatever the
(truncated) `__add_timestamp` body accumulates goes into a freshly created
`WriteBatch` that is discarded, while `LevelDbCalendar.add` commits the
untouched empty `batch` — so any sequence of `add` calls leaves the store
unchanged and no union of branches is ever stored. -/
theorem levelDbCalendar_add_discards_batch
    (mergeBody : Store → Timestamp → List (List Nat × List Op))
    (s : Store) (A B : Timestamp) :
    LevelDbCalendar.add mergeBody (LevelDbCalendar.add mergeBody s A) B = s := by
  rfl

/-- C9: a tick of `Aggregator.__loop` that drains an empty queue performs no
Calendar submission and no Journal write: the journal is unchanged and no
commitment is produced. -/
theorem aggregator_empty_tick_noop (hash : List Nat → List Nat)
    (time : Nat) (journal : List Nat) :
    Aggregator.tick hash [] time journal = (journal, none) := by
  rfl

/-- C10: the Timestamp returned by `Aggregator.submit` is rooted at the
submitted digest itself, the value enqueued for aggregation is the nonced
derivative (rooted at the nonce-derived digest), and the nonce op sits
beneath the returned root, carrying the enqueued derivative as its
sub-timestamp. -/
theorem aggregator_submit_rooted_at_msg (nonce msg : List Nat) :
    (Aggregator.submit nonce msg).1.msg = msg ∧
    (Aggregator.submit nonce msg).2.msg = nonce ++ msg ∧
    (Op.prepend nonce, (Aggregator.submit nonce msg).2) ∈
      (Aggregator.submit nonce msg).1.ops := by
  refine ⟨rfl, rfl, ?_⟩
  simp [Aggregator.submit, nonceTimestamp, Timestamp.ops]

/-- C4: submitting a valid 36-byte entry to a journal holding `n` complete
records appends it as entry `n`, and reading index `n` back returns exactly
the submitted bytes. -/
theorem journal_submit_get_roundtrip (file e : List Nat) (n : Nat)
    (hf : file.length = 36 * n) (he : e.length = 36) :
    JournalWriter.submit file e = some (file ++ e) ∧
    Journal.getitem (file ++ e) n = some e := by
  constructor
  · simp [JournalWriter.submit, COMMITMENT_SIZE, he, hf, Nat.mul_mod_right]
  · have hdrop : (file ++ e).drop (n * 36) = e := by
      apply List.drop_left'
      simp [hf, Nat.mul_comm]
    have htake : e.take 36 = e := List.take_of_length_le (le_of_eq he)
    simp [Journal.getitem, COMMITMENT_SIZE, hdrop, htake, he]

theorem journal_submit_get_roundtrip_witness :
    JournalWriter.submit (List.replicate 36 7) (List.replicate 36 9) =
      some (List.replicate 36 7 ++ List.replicate 36 9) ∧
    Journal.getitem (List.replicate 36 7 ++ List.replicate 36 9) 1 =
      some (List.replicate 36 9) :=
  journal_submit_get_roundtrip (List.replicate 36 7) (List.replicate 36 9) 1
    (by simp) (by simp)

/-- C8: `JournalWriter.submit` rejects (appending nothing) every entry whose
length is not exactly 36 bytes, and `Journal.__getitem__`, pure offset
arithmetic at `idx * 36`, succeeds exactly when at least 36 bytes remain at
that offset. -/
theorem journal_submit_rejects_and_get_bounds (file e : List Nat) (idx : Nat) :
    (e.length ≠ 36 → JournalWriter.submit file e = none) ∧
    ((Journal.getitem file idx).isSome ↔ idx * 36 + 36 ≤ file.length) := by
  constructor
  · intro h
    simp [JournalWriter.submit, COMMITMENT_SIZE, h]
  · rcases le_or_lt (idx * 36 + 36) file.length with h | h
    · have h36 : ((file.drop (idx * 36)).take 36).length = 36 := by
        rw [List.length_take, List.length_drop]; omega
      simp [Journal.getitem, COMMITMENT_SIZE, h36, h]
    · have h36 : ¬ ((file.drop (idx * 36)).take 36).length = 36 := by
        rw [List.length_take, List.length_drop]; omega
      simp only [Journal.getitem, COMMITMENT_SIZE, h36, if_false, Option.isSome_none,
        Bool.false_eq_true, false_iff]
      omega

theorem journal_submit_rejects_and_get_bounds_witness :
    JournalWriter.submit [1, 2, 3] [4] = none ∧
    ((Journal.getitem [1, 2, 3] 0).isSome ↔ 0 * 36 + 36 ≤ [1, 2, 3].length) :=
  ⟨(journal_submit_rejects_and_get_bounds [1, 2, 3] [4] 0).1 (by decide),
   (journal_submit_rejects_and_get_bounds [1, 2, 3] [4] 0).2⟩

/-- C5 counterexample: `Calendar.submit` journals
`OpPrepend(serialized_time)` applied to the commitment digest, i.e. the
4 time bytes come *before* the 32 digest bytes; at a concrete input the
journaled entry read back at index 0 is not `digest ++ time` as the claim
states. -/
theorem journal_entry_layout_cex :
    (Calendar.submit 0 (Timestamp.mk (List.replicate 32 170) []) []).map Prod.snd =
      some (pack32be 0 ++ List.replicate 32 170) ∧
    Journal.getitem (pack32be 0 ++ List.replicate 32 170) 0 ≠
      some (List.replicate 32 170 ++ pack32be 0) := by
  decide

/-- C5 amended: every record journaled by `Calendar.submit` is the fixed
36-byte value laid out as the 4-byte big-endian submission time followed by
the 32-byte commitment digest; for the first commitment, reading index 0
returns `time ++ C`. -/
theorem journal_entry_layout_time_then_digest (t : Nat) (C : List Nat)
    (hC : C.length = 32) :
    (Calendar.submit t (Timestamp.mk C []) []).map Prod.snd =
      some (pack32be t ++ C) ∧
    Journal.getitem (pack32be t ++ C) 0 = some (pack32be t ++ C) := by
  have hlen : (pack32be t ++ C).length = 36 := by simp [pack32be, hC]
  constructor
  · simp [Calendar.submit, JournalWriter.submit, COMMITMENT_SIZE, Timestamp.msg, hlen]
  · simp [Journal.getitem, COMMITMENT_SIZE, List.take_of_length_le (le_of_eq hlen), hlen]

theorem journal_entry_layout_time_then_digest_witness :
    (List.replicate 32 5).length = 32 ∧
    ((Calendar.submit 1 (Timestamp.mk (List.replicate 32 5) []) []).map Prod.snd =
      some (pack32be 1 ++ List.replicate 32 5) ∧
     Journal.getitem (pack32be 1 ++ List.replicate 32 5) 0 =
      some (pack32be 1 ++ List.replicate 32 5)) :=
  ⟨by decide, journal_entry_layout_time_then_digest 1 (List.replicate 32 5) (by decide)⟩

/-- C6 counterexample: a journal file of `36*0 + 1` bytes is padded on open,
and after the next submit the newly submitted data is *not* entry `n = 0`:
entry 0 is the corrupt tail plus zero padding, which *is* returned as data. -/
theorem journal_padding_cex :
    JournalWriter.openJournal [65] = [65] ++ List.replicate 35 0 ∧
    JournalWriter.submit ([65] ++ List.replicate 35 0) (List.replicate 36 42) =
      some (([65] ++ List.replicate 35 0) ++ List.replicate 36 42) ∧
    Journal.getitem (([65] ++ List.replicate 35 0) ++ List.replicate 36 42) 0 =
      some ([65] ++ List.replicate 35 0) ∧
    [65] ++ List.replicate 35 0 ≠ List.replicate 36 42 := by
  decide

/-- C6 amended: on open the file is padded from `36*n + k` bytes to
`36*(n+1)` bytes; the padded corrupt tail occupies entry `n`, and the entry
holding the next submitted data is entry `n + 1`, read back exactly. -/
theorem journal_padding_next_entry (file e : List Nat) (n k : Nat)
    (hf : file.length = 36 * n + k) (hk0 : 0 < k) (hk : k < 36) (he : e.length = 36) :
    (JournalWriter.openJournal file).length = 36 * (n + 1) ∧
    JournalWriter.submit (JournalWriter.openJournal file) e =
      some (JournalWriter.openJournal file ++ e) ∧
    Journal.getitem (JournalWriter.openJournal file ++ e) (n + 1) = some e := by
  have hmod : file.length % 36 = k := by omega
  have hne : ¬ file.length % 36 = 0 := by omega
  have hopen : JournalWriter.openJournal file =
      file ++ List.replicate (36 - file.length % 36) 0 := by
    simp [JournalWriter.openJournal, COMMITMENT_SIZE, hne]
  have hlen : (JournalWriter.openJournal file).length = 36 * (n + 1) := by
    rw [hopen]
    simp [hmod]
    omega
  refine ⟨hlen, ?_, ?_⟩
  · simp [JournalWriter.submit, COMMITMENT_SIZE, he, hlen, Nat.mul_mod_right]
  · have hdrop : (JournalWriter.openJournal file ++ e).drop ((n + 1) * 36) = e := by
      apply List.drop_left'
      rw [hlen, Nat.mul_comm]
    have htake : e.take 36 = e := List.take_of_length_le (le_of_eq he)
    simp [Journal.getitem, COMMITMENT_SIZE, hdrop, htake, he]

theorem journal_padding_next_entry_witness :
    ([65] : List Nat).length = 36 * 0 + 1 ∧ 0 < 1 ∧ 1 < 36 ∧
    (List.replicate 36 42 : List Nat).length = 36 ∧
    ((JournalWriter.openJournal [65]).length = 36 * (0 + 1) ∧
     JournalWriter.submit (JournalWriter.openJournal [65]) (List.replicate 36 42) =
       some (JournalWriter.openJournal [65] ++ List.replicate 36 42) ∧
     Journal.getitem (JournalWriter.openJournal [65] ++ List.replicate 36 42) (0 + 1) =
       some (List.replicate 36 42)) :=
  ⟨by decide, by decide, by decide, by decide,
   journal_padding_next_entry [65] (List.replicate 36 42) 0 1
     (by decide) (by decide) (by decide) (by decide)⟩

/-- C3: in one tick, two distinct digests submitted in the same interval
(enqueued as their nonced derivatives `nᵢ ++ dᵢ`) are aggregated under one
Merkle root commitment: the op chain handed to each caller resolves its own
digest to the same root, and the journal grows by exactly one 36-byte entry,
the one carrying that root commitment. -/
theorem aggregator_interval_single_commitment (hash : List Nat → List Nat)
    (h32 : ∀ b, (hash b).length = 32) (d1 d2 n1 n2 : List Nat) (_hne : d1 ≠ d2)
    (t : Nat) (j : List Nat) (hj : j.length % 36 = 0) :
    Aggregator.tick hash [n1 ++ d1, n2 ++ d2] t j =
      (j ++ (pack32be t ++ hash ((n1 ++ d1) ++ (n2 ++ d2))),
       some (hash ((n1 ++ d1) ++ (n2 ++ d2)),
         [[Op.append (n2 ++ d2), Op.sha256], [Op.prepend (n1 ++ d1), Op.sha256]])) ∧
    applyOps hash (nonceOps n1 ++ [Op.append (n2 ++ d2), Op.sha256]) d1 =
      hash ((n1 ++ d1) ++ (n2 ++ d2)) ∧
    applyOps hash (nonceOps n2 ++ [Op.prepend (n1 ++ d1), Op.sha256]) d2 =
      hash ((n1 ++ d1) ++ (n2 ++ d2)) ∧
    (j ++ (pack32be t ++ hash ((n1 ++ d1) ++ (n2 ++ d2)))).length = j.length + 36 := by
  refine ⟨?_, rfl, rfl, ?_⟩
  · simp [Aggregator.tick, makeMerkleTree, foldMerkle, Calendar.submit,
      JournalWriter.submit, COMMITMENT_SIZE, Timestamp.msg, Timestamp.ops,
      pack32be, h32, hj]
  · simp [pack32be, h32]

theorem aggregator_interval_single_commitment_witness :
    ([1] : List Nat) ≠ [2] ∧
    (Aggregator.tick (fun _ => List.replicate 32 0) [[1], [2]] 7 [] =
      (pack32be 7 ++ List.replicate 32 0,
       some (List.replicate 32 0,
         [[Op.append [2], Op.sha256], [Op.prepend [1], Op.sha256]])) ∧
     applyOps (fun _ => List.replicate 32 0)
       (nonceOps [] ++ [Op.append [2], Op.sha256]) [1] = List.replicate 32 0 ∧
     applyOps (fun _ => List.replicate 32 0)
       (nonceOps [] ++ [Op.prepend [1], Op.sha256]) [2] = List.replicate 32 0 ∧
     (([] : List Nat) ++ (pack32be 7 ++ List.replicate 32 0)).length =
       ([] : List Nat).length + 36) :=
  ⟨by decide, aggregator_interval_single_commitment (fun _ => List.replicate 32 0)
    (fun _ => by simp) [1] [2] [] [] (by decide) 7 [] (by decide)⟩

theorem mem_insertSorted (a f : Nat × Option Timestamp)
    (l : List (Nat × Option Timestamp)) :
    a ∈ insertSorted f l ↔ a = f ∨ a ∈ l := by
  induction l with
  | nil => simp [insertSorted]
  | cons g rest ih =>
    by_cases h : f.1 ≤ g.1
    · simp [insertSorted, h]
    · simp only [insertSorted, h, if_false, List.mem_cons, ih]
      tauto

theorem mem_sortFiles (a : Nat × Option Timestamp)
    (files : List (Nat × Option Timestamp)) :
    a ∈ sortFiles files ↔ a ∈ files := by
  induction files with
  | nil => simp [sortFiles]
  | cons f rest ih =>
    simp only [sortFiles, List.foldr_cons, List.mem_cons]
    rw [mem_insertSorted]
    simp only [sortFiles] at ih
    rw [ih]

/-- C7: a stored proof file that fails to deserialize is skipped while the
valid ones are still returned — one corrupt and one valid file yield exactly
the valid proof — and the lookup raises `KeyError` exactly when the
commitment directory is absent, is empty, or every file in it fails to
parse. -/
theorem calendar_lookup_skips_corrupt :
    (∀ (n1 n2 : Nat) (v : Timestamp),
      Calendar.getitem (some [(n1, none), (n2, some v)]) = .ok [v]) ∧
    (∀ dir, Calendar.getitem dir = .error () ↔
      (dir = none ∨ dir = some [] ∨
        ∃ files, dir = some files ∧ ∀ f ∈ files, f.2 = none)) := by
  constructor
  · intro n1 n2 v
    by_cases h : n1 ≤ n2 <;>
      simp [Calendar.getitem, sortFiles, insertSorted, h]
  · intro dir
    match dir with
    | none => simp [Calendar.getitem]
    | some files =>
      rcases eq_or_ne files [] with rfl | hne
      · simp [Calendar.getitem]
      · have hno : ¬ files.isEmpty = true := by
          simpa [List.isEmpty_iff] using hne
        have hval : ((sortFiles files).filterMap Prod.snd).isEmpty = true ↔
            ∀ f ∈ files, f.2 = none := by
          rw [List.isEmpty_iff, List.filterMap_eq_nil_iff]
          constructor
          · intro h f hf
            exact h f ((mem_sortFiles f files).mpr hf)
          · intro h f hf
            exact h f ((mem_sortFiles f files).mp hf)
        by_cases hv : ((sortFiles files).filterMap Prod.snd).isEmpty = true
        · have hL : Calendar.getitem (some files) = .error () := by
            simp [Calendar.getitem, hno, hv]
          rw [hL]
          exact iff_of_true rfl (Or.inr (Or.inr ⟨files, rfl, hval.mp hv⟩))
        · have hL : Calendar.getitem (some files) =
              .ok ((sortFiles files).filterMap Prod.snd) := by
            simp [Calendar.getitem, hno, hv]
          rw [hL]
          apply iff_of_false
          · simp
          · rintro (h | h | ⟨fs, hfs, hall⟩)
            · exact Option.noConfusion h
            · exact hne (Option.some.inj h)
            · exact hv (hval.mpr (by rw [Option.some.inj hfs]; exact hall))

theorem mem_unionOps (o : Op) (ex new : List Op) :
    o ∈ unionOps ex new ↔ o ∈ ex ∨ o ∈ new := by
  simp only [unionOps, List.mem_append, List.mem_filter, decide_eq_true_eq]
  tauto

theorem unionOps_eq_of_subset (ex new : List Op) (h : ∀ o ∈ new, o ∈ ex) :
    unionOps ex new = ex := by
  have hnil : new.filter (fun o => decide (o ∉ ex)) = [] := by
    rw [List.filter_eq_nil_iff]
    intro a ha
    simp [h a ha]
  rw [unionOps, hnil, List.append_nil]

theorem sameOpSet_iff (a b : List Op) :
    sameOpSet a b = true ↔ ((∀ o ∈ a, o ∈ b) ∧ ∀ o ∈ b, o ∈ a) := by
  simp [sameOpSet]

theorem Store.put_same (s : Store) (k : List Nat) (v : List Op) :
    Store.put s k v k = v := by
  simp [Store.put]

theorem Store.put_other (s : Store) (k k' : List Nat) (v : List Op) (h : k' ≠ k) :
    Store.put s k v k' = s k' := by
  simp [Store.put, h]

theorem Store.put_self (s : Store) (k : List Nat) : Store.put s k (s k) = s := by
  funext k'
  by_cases h : k' = k <;> simp [Store.put, h]

theorem mergeTimestamp_def (s : Store) (m : List Nat) (ops : List (Op × Timestamp)) :
    mergeTimestamp s (.mk m ops) =
      if sameOpSet (s m) (ops.map Prod.fst) then s
      else mergeOpsList (Store.put s m (unionOps (s m) (ops.map Prod.fst))) ops := by
  simp only [mergeTimestamp]

theorem mergeOpsList_nil (s : Store) : mergeOpsList s [] = s := by
  simp only [mergeOpsList]

theorem mergeOpsList_cons (s : Store) (op : Op) (sub : Timestamp)
    (rest : List (Op × Timestamp)) :
    mergeOpsList s ((op, sub) :: rest) = mergeOpsList (mergeTimestamp s sub) rest := by
  simp only [mergeOpsList]

theorem tsKeys_def (m : List Nat) (ops : List (Op × Timestamp)) :
    tsKeys (.mk m ops) = m :: opsKeys ops := by
  simp only [tsKeys]

theorem opsKeys_nil : opsKeys [] = [] := by
  simp only [opsKeys]

theorem opsKeys_cons (op : Op) (sub : Timestamp) (rest : List (Op × Timestamp)) :
    opsKeys ((op, sub) :: rest) = tsKeys sub ++ opsKeys rest := by
  simp only [opsKeys]

mutual

theorem mergeTimestamp_frame (t : Timestamp) (s : Store) (k : List Nat)
    (hk : k ∉ tsKeys t) : mergeTimestamp s t k = s k :=
  match t with
  | .mk m ops => by
    rw [tsKeys_def, List.mem_cons] at hk
    push_neg at hk
    rw [mergeTimestamp_def]
    split
    · rfl
    · rw [mergeOpsList_frame ops _ k hk.2]
      exact Store.put_other _ _ _ _ hk.1

theorem mergeOpsList_frame (l : List (Op × Timestamp)) (s : Store) (k : List Nat)
    (hk : k ∉ opsKeys l) : mergeOpsList s l k = s k :=
  match l with
  | [] => by rw [mergeOpsList_nil]
  | (op, sub) :: rest => by
    rw [opsKeys_cons, List.mem_append] at hk
    push_neg at hk
    rw [mergeOpsList_cons, mergeOpsList_frame rest _ k hk.2]
    exact mergeTimestamp_frame sub s k hk.1

end

mutual

theorem mergeTimestamp_congr (t : Timestamp) (s1 s2 : Store)
    (h : ∀ k ∈ tsKeys t, s1 k = s2 k) :
    ∀ k ∈ tsKeys t, mergeTimestamp s1 t k = mergeTimestamp s2 t k :=
  match t with
  | .mk m ops => by
    intro k hk
    have hm : s1 m = s2 m := h m (by rw [tsKeys_def]; exact List.mem_cons_self m _)
    rw [tsKeys_def, List.mem_cons] at hk
    have hkmem : k ∈ tsKeys (Timestamp.mk m ops) := by
      rw [tsKeys_def]
      rcases hk with rfl | hk
      · exact List.mem_cons_self _ _
      · exact List.mem_cons_of_mem _ hk
    rw [mergeTimestamp_def, mergeTimestamp_def, hm]
    split
    · exact h k hkmem
    · have hagree : ∀ k' ∈ opsKeys ops,
          Store.put s1 m (unionOps (s2 m) (ops.map Prod.fst)) k' =
          Store.put s2 m (unionOps (s2 m) (ops.map Prod.fst)) k' := by
        intro k' hk'
        by_cases hkm : k' = m
        · subst hkm; rw [Store.put_same, Store.put_same]
        · rw [Store.put_other _ _ _ _ hkm, Store.put_other _ _ _ _ hkm]
          exact h k' (by rw [tsKeys_def]; exact List.mem_cons_of_mem _ hk')
      by_cases hko : k ∈ opsKeys ops
      · exact mergeOpsList_congr ops _ _ hagree k hko
      · have hkm : k = m := by tauto
        subst hkm
        rw [mergeOpsList_frame ops _ k hko, mergeOpsList_frame ops _ k hko,
          Store.put_same, Store.put_same]

theorem mergeOpsList_congr (l : List (Op × Timestamp)) (s1 s2 : Store)
    (h : ∀ k ∈ opsKeys l, s1 k = s2 k) :
    ∀ k ∈ opsKeys l, mergeOpsList s1 l k = mergeOpsList s2 l k :=
  match l with
  | [] => by intro k hk; rw [opsKeys_nil] at hk; exact absurd hk (List.not_mem_nil k)
  | (op, sub) :: rest => by
    intro k hk
    rw [opsKeys_cons, List.mem_append] at hk
    have hsub : ∀ k' ∈ tsKeys sub, s1 k' = s2 k' := by
      intro k' hk'
      exact h k' (by rw [opsKeys_cons]; exact List.mem_append_left _ hk')
    have hagree : ∀ k' ∈ opsKeys rest,
        mergeTimestamp s1 sub k' = mergeTimestamp s2 sub k' := by
      intro k' hk'
      by_cases hks : k' ∈ tsKeys sub
      · exact mergeTimestamp_congr sub _ _ hsub k' hks
      · rw [mergeTimestamp_frame sub _ _ hks, mergeTimestamp_frame sub _ _ hks]
        exact h k' (by rw [opsKeys_cons]; exact List.mem_append_right _ hk')
    rw [mergeOpsList_cons, mergeOpsList_cons]
    by_cases hko : k ∈ opsKeys rest
    · exact mergeOpsList_congr rest _ _ hagree k hko
    · have hks : k ∈ tsKeys sub := by tauto
      rw [mergeOpsList_frame rest _ _ hko, mergeOpsList_frame rest _ _ hko]
      exact mergeTimestamp_congr sub _ _ hsub k hks

end

mutual

theorem mergeTimestamp_idem_aux (t : Timestamp) (s : Store)
    (h : (tsKeys t).Nodup) :
    mergeTimestamp (mergeTimestamp s t) t = mergeTimestamp s t :=
  match t with
  | .mk m ops => by
    rw [tsKeys_def, List.nodup_cons] at h
    obtain ⟨hm, hops⟩ := h
    by_cases hsame : sameOpSet (s m) (ops.map Prod.fst) = true
    · have hfix : mergeTimestamp s (Timestamp.mk m ops) = s := by
        rw [mergeTimestamp_def, if_pos hsame]
      rw [hfix, hfix]
    · have hfirst : mergeTimestamp s (Timestamp.mk m ops) =
          mergeOpsList (Store.put s m (unionOps (s m) (ops.map Prod.fst))) ops := by
        rw [mergeTimestamp_def, if_neg hsame]
      have hsm : mergeTimestamp s (Timestamp.mk m ops) m =
          unionOps (s m) (ops.map Prod.fst) := by
        rw [hfirst, mergeOpsList_frame ops _ m hm, Store.put_same]
      by_cases hsame2 : sameOpSet (mergeTimestamp s (Timestamp.mk m ops) m)
          (ops.map Prod.fst) = true
      · rw [mergeTimestamp_def, if_pos hsame2]
      · rw [mergeTimestamp_def, if_neg hsame2]
        have hsub : ∀ o ∈ ops.map Prod.fst,
            o ∈ mergeTimestamp s (Timestamp.mk m ops) m := by
          intro o ho
          rw [hsm]
          exact (mem_unionOps o _ _).mpr (Or.inr ho)
        rw [unionOps_eq_of_subset _ _ hsub, Store.put_self, hfirst]
        exact mergeOpsList_idem_aux ops _ hops

theorem mergeOpsList_idem_aux (l : List (Op × Timestamp)) (s : Store)
    (h : (opsKeys l).Nodup) :
    mergeOpsList (mergeOpsList s l) l = mergeOpsList s l :=
  match l with
  | [] => by rw [mergeOpsList_nil, mergeOpsList_nil]
  | (op, sub) :: rest => by
    rw [opsKeys_cons, List.nodup_append] at h
    obtain ⟨hsub, hrest, hdisj⟩ := h
    rw [mergeOpsList_cons]
    have hstep1 : mergeTimestamp (mergeOpsList s ((op, sub) :: rest)) sub =
        mergeOpsList s ((op, sub) :: rest) := by
      funext k
      by_cases hk : k ∈ tsKeys sub
      · have hagree : ∀ k' ∈ tsKeys sub,
            mergeOpsList s ((op, sub) :: rest) k' = mergeTimestamp s sub k' := by
          intro k' hk'
          rw [mergeOpsList_cons]
          exact mergeOpsList_frame rest _ k' (fun hc => hdisj hk' hc)
        calc mergeTimestamp (mergeOpsList s ((op, sub) :: rest)) sub k
            = mergeTimestamp (mergeTimestamp s sub) sub k :=
              mergeTimestamp_congr sub _ _ hagree k hk
          _ = mergeTimestamp s sub k := by
              rw [mergeTimestamp_idem_aux sub s hsub]
          _ = mergeOpsList s ((op, sub) :: rest) k := (hagree k hk).symm
      · exact mergeTimestamp_frame sub _ k hk
    rw [hstep1, mergeOpsList_cons]
    exact mergeOpsList_idem_aux rest _ hrest

end

/-- C2: the §4.4 merge contract is idempotent: merging the same Timestamp
twice leaves the store exactly as a single merge does (stated for
well-formed timestamps whose node digests are pairwise distinct), and when
the existing and incoming op-sets, compared non-recursively, are already
identical, the call is a no-op. -/
theorem merge_store_idempotent (s : Store) (t : Timestamp)
    (h : (tsKeys t).Nodup) :
    mergeTimestamp (mergeTimestamp s t) t = mergeTimestamp s t ∧
    (∀ s0 : Store, sameOpSet (s0 t.msg) t.topOps = true → mergeTimestamp s0 t = s0) := by
  constructor
  · exact mergeTimestamp_idem_aux t s h
  · intro s0 hs0
    match t with
    | .mk m ops =>
      rw [mergeTimestamp_def]
      rw [Timestamp.msg] at hs0
      have : sameOpSet (s0 m) (ops.map Prod.fst) = true := hs0
      rw [if_pos this]

theorem merge_store_idempotent_witness :
    (tsKeys (Timestamp.mk [0] [(Op.sha256, Timestamp.mk [1] [])])).Nodup ∧
    (mergeTimestamp (mergeTimestamp (fun _ => [])
        (Timestamp.mk [0] [(Op.sha256, Timestamp.mk [1] [])]))
        (Timestamp.mk [0] [(Op.sha256, Timestamp.mk [1] [])]) =
      mergeTimestamp (fun _ => []) (Timestamp.mk [0] [(Op.sha256, Timestamp.mk [1] [])]) ∧
     (∀ s0 : Store, sameOpSet (s0 (Timestamp.mk [0] [(Op.sha256, Timestamp.mk [1] [])]).msg)
         (Timestamp.mk [0] [(Op.sha256, Timestamp.mk [1] [])]).topOps = true →
       mergeTimestamp s0 (Timestamp.mk [0] [(Op.sha256, Timestamp.mk [1] [])]) = s0)) :=
  ⟨by rw [tsKeys_def, opsKeys_cons, tsKeys_def, opsKeys_nil]; decide,
   merge_store_idempotent (fun _ => []) (Timestamp.mk [0] [(Op.sha256, Timestamp.mk [1] [])])
     (by rw [tsKeys_def, opsKeys_cons, tsKeys_def, opsKeys_nil]; decide)⟩
